import Mathlib

/-!
Verification of `tres_leches.py`, a video-ledger workflow tool.

The Python source is shallowly embedded: the JSON ledger becomes the
structure `RawDoc`; each inline category transition of the workflow
becomes a pure function on `RawDoc`; Python's guarded
`if name in lst: lst.remove(name)` becomes `List.erase`, while the
unguarded `lst.remove(name)` (which raises `ValueError` when the name
is absent) becomes an `Option`-valued operation that is `none` exactly
when Python would raise.  Randomness (`random.choice`,
`random.randrange`) is modelled by an explicit tape of drawn numbers;
a tape entry for the k-th draw of `randrange(k)` is valid when it is
below `k`, and uniformity statements count outcomes over the list of
all valid tapes.
-/

namespace TresLeches

/-- `charsStart pat s`: `pat` is an initial run of `s` (character lists).
Models Python's `str.startswith` on the underlying characters. -/
def charsStart : List Char → List Char → Bool
  | [], _ => true
  | _ :: _, [] => false
  | p :: ps, c :: cs => p = c && charsStart ps cs

/-- Python truthiness of the optional `last_prefix` setting:
`None` and the empty string are falsy. -/
def pfxFalsy : Option String → Bool
  | none => true
  | some s => s.data.isEmpty

/-- The persisted JSON ledger document.  The four legacy categories are
always present; `b-roll` may be absent in legacy documents (`none`), and
`last_prefix` is optional. -/
structure RawDoc where
  unused : List String
  used : List String
  inprogress : List String
  ignore : List String
  broll : Option (List String)
  lastPfx : Option String
deriving DecidableEq, Repr

/-- Concatenation of the five category lists (the set `known` that
`update_json_with_videos` computes, as a list with membership). -/
def allCats (d : RawDoc) : List String :=
  d.unused ++ d.used ++ d.inprogress ++ d.ignore ++ d.broll.getD []

/-- Each filename occurs at most once across the five categories combined. -/
def NodupAll (d : RawDoc) : Prop := (allCats d).Nodup

/-- Number of categories (among the five) in which `x` occurs. -/
def inCats (d : RawDoc) (x : String) : ℕ :=
  (if x ∈ d.unused then 1 else 0) + (if x ∈ d.used then 1 else 0) +
    (if x ∈ d.inprogress then 1 else 0) + (if x ∈ d.ignore then 1 else 0) +
    (if x ∈ d.broll.getD [] then 1 else 0)

/-- The spec's invariant "a filename appears in at most one of the five
categories". -/
def AtMostOneCat (d : RawDoc) : Prop := ∀ x : String, inCats d x ≤ 1

/-- Top-up action `i`: guarded removal from `unused`, append to `ignore`
(`tres_leches.py` lines 142-149). -/
def topupIgnore (d : RawDoc) (c : String) : RawDoc :=
  { d with unused := d.unused.erase c, ignore := d.ignore ++ [c] }

/-- Top-up action `b`: guarded removal from `unused`, append to `b-roll`
via `setdefault` (lines 150-157). -/
def topupBroll (d : RawDoc) (c : String) : RawDoc :=
  { d with unused := d.unused.erase c, broll := some (d.broll.getD [] ++ [c]) }

/-- Top-up action `c`: unguarded `data["unused"].remove(candidate)`
(raises, i.e. `none`, when absent) then append to `inprogress`
(lines 158-163). -/
def topupConfirm (d : RawDoc) (c : String) : Option RawDoc :=
  if c ∈ d.unused then
    some { d with unused := d.unused.erase c, inprogress := d.inprogress ++ [c] }
  else none

/-- In-progress action `r`: guarded removal from `inprogress`, append to
`unused` (lines 200-208). -/
def handleReturn (d : RawDoc) (c : String) : RawDoc :=
  { d with inprogress := d.inprogress.erase c, unused := d.unused ++ [c] }

/-- In-progress action `b`: guarded removal from `inprogress`, append to
`b-roll` (lines 235-244). -/
def handleBroll (d : RawDoc) (c : String) : RawDoc :=
  { d with inprogress := d.inprogress.erase c, broll := some (d.broll.getD [] ++ [c]) }

/-- In-progress action `d`: guarded removal from `inprogress`, append to
`used` (lines 246-255). -/
def handleDone (d : RawDoc) (c : String) : RawDoc :=
  { d with inprogress := d.inprogress.erase c, used := d.used ++ [c] }

/-- In-progress action `i`: guarded removal from `inprogress`, append to
`ignore` (lines 257-265). -/
def handleIgnore (d : RawDoc) (c : String) : RawDoc :=
  { d with inprogress := d.inprogress.erase c, ignore := d.ignore ++ [c] }

/-- Replacement draw after `r`/`i`: unguarded `data["unused"].remove(new_file)`
then append to `inprogress` (lines 221-222 and 278-279). -/
def replaceDraw (d : RawDoc) (c : String) : Option RawDoc :=
  if c ∈ d.unused then
    some { d with unused := d.unused.erase c, inprogress := d.inprogress ++ [c] }
  else none

/-- One category transition performed by the workflow.  The moved name is
always a member of its source category: top-up candidates and replacement
draws come from `choose_random_by_prefix` over `unused`, and in-progress
selections come from the listing of the in-progress working set. -/
inductive Step : RawDoc → RawDoc → Prop
  | topIgnore {d : RawDoc} {c : String} (h : c ∈ d.unused) : Step d (topupIgnore d c)
  | topBroll {d : RawDoc} {c : String} (h : c ∈ d.unused) : Step d (topupBroll d c)
  | topConfirm {d d' : RawDoc} {c : String} (h : topupConfirm d c = some d') : Step d d'
  | hReturn {d : RawDoc} {c : String} (h : c ∈ d.inprogress) : Step d (handleReturn d c)
  | hBroll {d : RawDoc} {c : String} (h : c ∈ d.inprogress) : Step d (handleBroll d c)
  | hDone {d : RawDoc} {c : String} (h : c ∈ d.inprogress) : Step d (handleDone d c)
  | hIgnore {d : RawDoc} {c : String} (h : c ∈ d.inprogress) : Step d (handleIgnore d c)
  | draw {d d' : RawDoc} {c : String} (h : replaceDraw d c = some d') : Step d d'

theorem count_single_self (x : String) : List.count x [x] = 1 := by
  simp [List.count_singleton']

theorem count_single_ne {x c : String} (h : x ≠ c) : List.count x [c] = 0 := by
  simp [List.count_singleton', h]

theorem nodupAll_topupIgnore {d : RawDoc} {c : String} (hm : c ∈ d.unused)
    (hn : NodupAll d) : NodupAll (topupIgnore d c) := by
  rw [NodupAll, List.nodup_iff_count_le_one] at hn ⊢
  intro x
  have hx := hn x
  have hc1 : 0 < List.count c d.unused := List.count_pos_iff.mpr hm
  by_cases hxc : x = c
  · subst hxc
    have e1 := List.count_erase_self x d.unused
    have e2 := count_single_self x
    simp only [allCats, topupIgnore, List.count_append] at hx ⊢
    omega
  · have e1 := List.count_erase_of_ne hxc d.unused
    have e2 := count_single_ne hxc
    simp only [allCats, topupIgnore, List.count_append] at hx ⊢
    omega

theorem nodupAll_topupBroll {d : RawDoc} {c : String} (hm : c ∈ d.unused)
    (hn : NodupAll d) : NodupAll (topupBroll d c) := by
  rw [NodupAll, List.nodup_iff_count_le_one] at hn ⊢
  intro x
  have hx := hn x
  have hc1 : 0 < List.count c d.unused := List.count_pos_iff.mpr hm
  by_cases hxc : x = c
  · subst hxc
    have e1 := List.count_erase_self x d.unused
    have e2 := count_single_self x
    simp only [allCats, topupBroll, List.count_append, Option.getD_some] at hx ⊢
    omega
  · have e1 := List.count_erase_of_ne hxc d.unused
    have e2 := count_single_ne hxc
    simp only [allCats, topupBroll, List.count_append, Option.getD_some] at hx ⊢
    omega

theorem nodupAll_confirmMove {d : RawDoc} {c : String} (hm : c ∈ d.unused)
    (hn : NodupAll d) :
    NodupAll { d with unused := d.unused.erase c, inprogress := d.inprogress ++ [c] } := by
  rw [NodupAll, List.nodup_iff_count_le_one] at hn ⊢
  intro x
  have hx := hn x
  have hc1 : 0 < List.count c d.unused := List.count_pos_iff.mpr hm
  by_cases hxc : x = c
  · subst hxc
    have e1 := List.count_erase_self x d.unused
    have e2 := count_single_self x
    simp only [allCats, List.count_append] at hx ⊢
    omega
  · have e1 := List.count_erase_of_ne hxc d.unused
    have e2 := count_single_ne hxc
    simp only [allCats, List.count_append] at hx ⊢
    omega

theorem nodupAll_handleReturn {d : RawDoc} {c : String} (hm : c ∈ d.inprogress)
    (hn : NodupAll d) : NodupAll (handleReturn d c) := by
  rw [NodupAll, List.nodup_iff_count_le_one] at hn ⊢
  intro x
  have hx := hn x
  have hc1 : 0 < List.count c d.inprogress := List.count_pos_iff.mpr hm
  by_cases hxc : x = c
  · subst hxc
    have e1 := List.count_erase_self x d.inprogress
    have e2 := count_single_self x
    simp only [allCats, handleReturn, List.count_append] at hx ⊢
    omega
  · have e1 := List.count_erase_of_ne hxc d.inprogress
    have e2 := count_single_ne hxc
    simp only [allCats, handleReturn, List.count_append] at hx ⊢
    omega

theorem nodupAll_handleBroll {d : RawDoc} {c : String} (hm : c ∈ d.inprogress)
    (hn : NodupAll d) : NodupAll (handleBroll d c) := by
  rw [NodupAll, List.nodup_iff_count_le_one] at hn ⊢
  intro x
  have hx := hn x
  have hc1 : 0 < List.count c d.inprogress := List.count_pos_iff.mpr hm
  by_cases hxc : x = c
  · subst hxc
    have e1 := List.count_erase_self x d.inprogress
    have e2 := count_single_self x
    simp only [allCats, handleBroll, List.count_append, Option.getD_some] at hx ⊢
    omega
  · have e1 := List.count_erase_of_ne hxc d.inprogress
    have e2 := count_single_ne hxc
    simp only [allCats, handleBroll, List.count_append, Option.getD_some] at hx ⊢
    omega

theorem nodupAll_handleDone {d : RawDoc} {c : String} (hm : c ∈ d.inprogress)
    (hn : NodupAll d) : NodupAll (handleDone d c) := by
  rw [NodupAll, List.nodup_iff_count_le_one] at hn ⊢
  intro x
  have hx := hn x
  have hc1 : 0 < List.count c d.inprogress := List.count_pos_iff.mpr hm
  by_cases hxc : x = c
  · subst hxc
    have e1 := List.count_erase_self x d.inprogress
    have e2 := count_single_self x
    simp only [allCats, handleDone, List.count_append] at hx ⊢
    omega
  · have e1 := List.count_erase_of_ne hxc d.inprogress
    have e2 := count_single_ne hxc
    simp only [allCats, handleDone, List.count_append] at hx ⊢
    omega

theorem nodupAll_handleIgnore {d : RawDoc} {c : String} (hm : c ∈ d.inprogress)
    (hn : NodupAll d) : NodupAll (handleIgnore d c) := by
  rw [NodupAll, List.nodup_iff_count_le_one] at hn ⊢
  intro x
  have hx := hn x
  have hc1 : 0 < List.count c d.inprogress := List.count_pos_iff.mpr hm
  by_cases hxc : x = c
  · subst hxc
    have e1 := List.count_erase_self x d.inprogress
    have e2 := count_single_self x
    simp only [allCats, handleIgnore, List.count_append] at hx ⊢
    omega
  · have e1 := List.count_erase_of_ne hxc d.inprogress
    have e2 := count_single_ne hxc
    simp only [allCats, handleIgnore, List.count_append] at hx ⊢
    omega

theorem nodupAll_step {d d' : RawDoc} (h : Step d d') (hn : NodupAll d) :
    NodupAll d' := by
  cases h with
  | topIgnore hm => exact nodupAll_topupIgnore hm hn
  | topBroll hm => exact nodupAll_topupBroll hm hn
  | topConfirm hc =>
    rename_i c
    by_cases hm : c ∈ d.unused
    · simp only [topupConfirm, if_pos hm, Option.some.injEq] at hc
      exact hc ▸ nodupAll_confirmMove hm hn
    · simp [topupConfirm, hm] at hc
  | hReturn hm => exact nodupAll_handleReturn hm hn
  | hBroll hm => exact nodupAll_handleBroll hm hn
  | hDone hm => exact nodupAll_handleDone hm hn
  | hIgnore hm => exact nodupAll_handleIgnore hm hn
  | draw hc =>
    rename_i c
    by_cases hm : c ∈ d.unused
    · simp only [replaceDraw, if_pos hm, Option.some.injEq] at hc
      exact hc ▸ nodupAll_confirmMove hm hn
    · simp [replaceDraw, hm] at hc

theorem inCats_le_count (d : RawDoc) (x : String) :
    inCats d x ≤ (allCats d).count x := by
  have h1 : (if x ∈ d.unused then 1 else 0) ≤ d.unused.count x := by
    by_cases h : x ∈ d.unused
    · rw [if_pos h]
      exact List.count_pos_iff.mpr h
    · simp [h]
  have h2 : (if x ∈ d.used then 1 else 0) ≤ d.used.count x := by
    by_cases h : x ∈ d.used
    · rw [if_pos h]
      exact List.count_pos_iff.mpr h
    · simp [h]
  have h3 : (if x ∈ d.inprogress then 1 else 0) ≤ d.inprogress.count x := by
    by_cases h : x ∈ d.inprogress
    · rw [if_pos h]
      exact List.count_pos_iff.mpr h
    · simp [h]
  have h4 : (if x ∈ d.ignore then 1 else 0) ≤ d.ignore.count x := by
    by_cases h : x ∈ d.ignore
    · rw [if_pos h]
      exact List.count_pos_iff.mpr h
    · simp [h]
  have h5 : (if x ∈ d.broll.getD [] then 1 else 0) ≤ (d.broll.getD []).count x := by
    by_cases h : x ∈ d.broll.getD []
    · rw [if_pos h]
      exact List.count_pos_iff.mpr h
    · simp [h]
  simp only [inCats, allCats, List.count_append]
  omega

theorem atMostOneCat_of_nodupAll {d : RawDoc} (h : NodupAll d) : AtMostOneCat d := by
  intro x
  exact le_trans (inCats_le_count d x)
    (List.nodup_iff_count_le_one.mp h x)

/-- C1 (amended): if each filename appears at most once across the five
categories combined (pairwise disjoint, duplicate-free), then after any
sequence of workflow transitions no filename appears in more than one
category. -/
theorem c1_transitions_preserve_at_most_one_category {d d' : RawDoc}
    (hn : NodupAll d) (hs : Relation.ReflTransGen Step d d') : AtMostOneCat d' := by
  have h' : NodupAll d' := by
    induction hs with
    | refl => exact hn
    | tail _ hstep ih => exact nodupAll_step hstep ih
  exact atMostOneCat_of_nodupAll h'

/-- C1 counterexample: in the ledger `unused = ["a","a"]` (all other
categories empty) the filename `"a"` appears in at most one of the five
categories, yet after the confirm transition it appears in both `unused`
and `inprogress`, so the claim as stated (over all states satisfying only
the at-most-one-category precondition) is false. -/
theorem c1_counterexample :
    AtMostOneCat ⟨["a", "a"], [], [], [], some [], none⟩ ∧
      Step ⟨["a", "a"], [], [], [], some [], none⟩ ⟨["a"], [], ["a"], [], some [], none⟩ ∧
      ¬ AtMostOneCat ⟨["a"], [], ["a"], [], some [], none⟩ := by
  refine ⟨?_, @Step.topConfirm ⟨["a", "a"], [], [], [], some [], none⟩
      ⟨["a"], [], ["a"], [], some [], none⟩ "a" (by decide), ?_⟩
  · intro x
    by_cases h : x = "a" <;> simp [inCats, h]
  · intro h
    have h2 : inCats ⟨["a"], [], ["a"], [], some [], none⟩ "a" = 2 := by decide
    have := h "a"
    omega

/-- C1 witness: the amended theorem applied to the concrete one-step run
that confirms `"a"` out of `unused = ["a"]`. -/
theorem c1_witness :
    NodupAll ⟨["a"], [], [], [], some [], none⟩ ∧
      AtMostOneCat ⟨[], [], ["a"], [], some [], none⟩ := by
  have hn : NodupAll ⟨["a"], [], [], [], some [], none⟩ := by
    unfold NodupAll
    decide
  refine ⟨hn, c1_transitions_preserve_at_most_one_category hn ?_⟩
  exact Relation.ReflTransGen.single
    (@Step.topConfirm ⟨["a"], [], [], [], some [], none⟩
      ⟨[], [], ["a"], [], some [], none⟩ "a" (by decide))

/-- One entry of `os.scandir`.  `probeOk = false` models an entry whose
`is_file` probe raises an exception, which the scanner skips and continues. -/
structure DirEntry where
  name : String
  isFile : Bool
  probeOk : Bool
deriving DecidableEq, Repr

/-- The fixed allow-list `VIDEO_EXTENSIONS` (line 9). -/
def videoExtensions : List String :=
  [".mp4", ".avi", ".mov", ".mkv", ".wmv", ".flv", ".webm", ".m4v"]

/-- Index of the last dot in a character list, if any. -/
def lastDotIdx : List Char → Option ℕ
  | [] => none
  | c :: cs =>
    match lastDotIdx cs with
    | some i => some (i + 1)
    | none => if c = '.' then some 0 else none

/-- The extension part of `os.path.splitext` for a bare filename (no path
separators): everything from the last dot on, except that a name whose
characters before the last dot are all dots has no extension. -/
def splitExtChars (cs : List Char) : List Char :=
  match lastDotIdx cs with
  | none => []
  | some d => if (cs.take d).all (fun c => c = '.') then [] else cs.drop d

/-- `os.path.splitext(name)[1].lower()` (line 18). -/
def extOf (name : String) : String :=
  String.mk ((splitExtChars name.data).map Char.toLower)

/-- `ext in VIDEO_EXTENSIONS` (line 19). -/
def extAllowed (name : String) : Bool := videoExtensions.contains (extOf name)

/-- `iter_video_files` (lines 11-24): `none` models a directory that does
not exist (`FileNotFoundError` caught, scan yields nothing). -/
def iterVideoFiles : Option (List DirEntry) → List String
  | none => []
  | some es =>
    es.filterMap fun e =>
      if e.probeOk && (e.isFile && extAllowed e.name) then some e.name else none

/-- `get_video_files` (lines 26-28): the scan as a set. -/
def getVideoFiles (dir : Option (List DirEntry)) : Finset String :=
  (iterVideoFiles dir).toFinset

/-- The creation loop of `update_json_with_videos` (lines 306-309): append
each scanned name to the initially empty `unused`, counting. -/
def seedUnused : List String → List String → ℕ → List String × ℕ
  | [], acc, c => (acc, c)
  | n :: rest, acc, c => seedUnused rest (acc ++ [n]) (c + 1)

/-- The missing-file branch of `update_json_with_videos` (lines 298-312). -/
def createDoc (listing : List String) : RawDoc × ℕ :=
  (⟨(seedUnused listing [] 0).1, [], [], [], some [], none⟩, (seedUnused listing [] 0).2)

/-- The `b-roll` migration on load (lines 316-319). -/
def fixBroll (d : RawDoc) : RawDoc := { d with broll := some (d.broll.getD []) }

/-- The reconciliation loop (lines 324-329): append each scanned name not
yet known into `unused`, extending `known`, counting additions. -/
def addNew : List String → RawDoc → List String → ℕ → RawDoc × ℕ
  | [], d, _, added => (d, added)
  | name :: rest, d, known, added =>
    if name ∈ known then addNew rest d known added
    else addNew rest { d with unused := d.unused ++ [name] } (name :: known) (added + 1)

/-- The existing-file branch of `update_json_with_videos` (lines 313-335):
ensure `b-roll` exists, compute `known` across the five categories, then
append unknown scanned names to `unused`. -/
def reconcile (d : RawDoc) (listing : List String) : RawDoc × ℕ :=
  addNew listing (fixBroll d) (allCats (fixBroll d)) 0

/-- `update_json_with_videos` (lines 294-335) as a function of the existing
document (if the JSON file exists) and the directory listing; returns the
resulting document and the number of entries added. -/
def updateJson : Option RawDoc → List String → RawDoc × ℕ
  | none, listing => createDoc listing
  | some d, listing => reconcile d listing

theorem seedUnused_fst (listing : List String) :
    ∀ (acc : List String) (c : ℕ), (seedUnused listing acc c).1 = acc ++ listing := by
  induction listing with
  | nil => intro acc c; simp [seedUnused]
  | cons n rest ih =>
    intro acc c
    rw [seedUnused, ih]
    simp

theorem seedUnused_snd (listing : List String) :
    ∀ (acc : List String) (c : ℕ), (seedUnused listing acc c).2 = c + listing.length := by
  induction listing with
  | nil => intro acc c; simp [seedUnused]
  | cons n rest ih =>
    intro acc c
    rw [seedUnused, ih]
    simp
    omega

theorem createDoc_fst (listing : List String) :
    (createDoc listing).1 = ⟨listing, [], [], [], some [], none⟩ := by
  simp [createDoc, seedUnused_fst]

theorem createDoc_snd (listing : List String) :
    (createDoc listing).2 = listing.length := by
  simp [createDoc, seedUnused_snd]

theorem fixBroll_of_isSome {d : RawDoc} {b : List String} (h : d.broll = some b) :
    fixBroll d = d := by
  cases d
  simp_all [fixBroll]

theorem addNew_spec (listing : List String) :
    ∀ (d : RawDoc) (known : List String) (a : ℕ),
      (addNew listing d known a).1.used = d.used ∧
      (addNew listing d known a).1.inprogress = d.inprogress ∧
      (addNew listing d known a).1.ignore = d.ignore ∧
      (addNew listing d known a).1.broll = d.broll ∧
      (addNew listing d known a).1.lastPfx = d.lastPfx ∧
      ∃ ns : List String, (addNew listing d known a).1.unused = d.unused ++ ns ∧
        ∀ n ∈ ns, n ∈ listing ∧ n ∉ known := by
  induction listing with
  | nil =>
    intro d known a
    exact ⟨rfl, rfl, rfl, rfl, rfl, [], by simp [addNew], by simp⟩
  | cons name rest ih =>
    intro d known a
    by_cases hk : name ∈ known
    · rw [addNew, if_pos hk]
      obtain ⟨h1, h2, h3, h4, h5, ns, h6, h7⟩ := ih d known a
      exact ⟨h1, h2, h3, h4, h5, ns, h6, fun n hn =>
        ⟨List.mem_cons_of_mem _ (h7 n hn).1, (h7 n hn).2⟩⟩
    · rw [addNew, if_neg hk]
      obtain ⟨h1, h2, h3, h4, h5, ns, h6, h7⟩ :=
        ih { d with unused := d.unused ++ [name] } (name :: known) (a + 1)
      refine ⟨h1, h2, h3, h4, h5, name :: ns, ?_, ?_⟩
      · rw [h6]; simp
      · intro n hn
        rcases List.mem_cons.mp hn with rfl | hn'
        · exact ⟨List.mem_cons_self _ _, hk⟩
        · refine ⟨List.mem_cons_of_mem _ (h7 n hn').1, fun hkn => (h7 n hn').2 ?_⟩
          exact List.mem_cons_of_mem _ hkn

theorem allCats_addNew_mono (listing : List String) (d : RawDoc)
    (known : List String) (a : ℕ) {x : String} (hx : x ∈ allCats d) :
    x ∈ allCats (addNew listing d known a).1 := by
  obtain ⟨h1, h2, h3, h4, _, ns, h6, _⟩ := addNew_spec listing d known a
  simp only [allCats] at hx ⊢
  rw [h1, h2, h3, h4, h6]
  simp only [List.mem_append] at hx ⊢
  tauto

theorem addNew_known_covers (listing : List String) :
    ∀ (d : RawDoc) (known : List String) (a : ℕ),
      (∀ x ∈ known, x ∈ allCats d) →
      ∀ n ∈ listing, n ∈ allCats (addNew listing d known a).1 := by
  induction listing with
  | nil => intro d known a _ n hn; simp at hn
  | cons name rest ih =>
    intro d known a hsub n hn
    by_cases hk : name ∈ known
    · rw [addNew, if_pos hk]
      rcases List.mem_cons.mp hn with rfl | hn'
      · exact allCats_addNew_mono rest d known a (hsub _ hk)
      · exact ih d known a hsub n hn'
    · rw [addNew, if_neg hk]
      have hmemd1 : name ∈ allCats { d with unused := d.unused ++ [name] } := by
        simp [allCats]
      have hsub1 : ∀ x ∈ (name :: known), x ∈ allCats { d with unused := d.unused ++ [name] } := by
        intro x hxk
        rcases List.mem_cons.mp hxk with rfl | hxk'
        · exact hmemd1
        · have := hsub x hxk'
          simp only [allCats, List.mem_append] at this ⊢
          tauto
      rcases List.mem_cons.mp hn with rfl | hn'
      · exact allCats_addNew_mono rest _ _ _ hmemd1
      · exact ih _ _ _ hsub1 n hn'

theorem addNew_id (listing : List String) :
    ∀ (d : RawDoc) (known : List String) (a : ℕ),
      (∀ n ∈ listing, n ∈ known) → addNew listing d known a = (d, a) := by
  induction listing with
  | nil => intro d known a _; rfl
  | cons name rest ih =>
    intro d known a h
    rw [addNew, if_pos (h name (List.mem_cons_self _ _))]
    exact ih d known a fun n hn => h n (List.mem_cons_of_mem _ hn)

theorem reconcile_broll (d : RawDoc) (listing : List String) :
    (reconcile d listing).1.broll = some (d.broll.getD []) := by
  obtain ⟨_, _, _, h4, _, _⟩ :=
    addNew_spec listing (fixBroll d) (allCats (fixBroll d)) 0
  exact h4

/-- C5: when no ledger file exists, `update_json_with_videos` creates a
document whose `unused` category holds exactly the scanned video names and
whose `used`, `inprogress`, `ignore` and `b-roll` categories are empty. -/
theorem c5_fresh_ledger_creation (dir : Option (List DirEntry)) :
    updateJson none (iterVideoFiles dir) =
      (⟨iterVideoFiles dir, [], [], [], some [], none⟩, (iterVideoFiles dir).length) :=
  Prod.ext_iff.mpr ⟨createDoc_fst _, createDoc_snd _⟩

/-- C5 witness: a directory holding `a.mp4` and `b.mkv` yields a fresh
ledger with exactly those names unused. -/
theorem c5_witness :
    updateJson none (iterVideoFiles (some [⟨"a.mp4", true, true⟩, ⟨"b.mkv", true, true⟩])) =
      (⟨iterVideoFiles (some [⟨"a.mp4", true, true⟩, ⟨"b.mkv", true, true⟩]), [], [], [],
        some [], none⟩,
        (iterVideoFiles (some [⟨"a.mp4", true, true⟩, ⟨"b.mkv", true, true⟩])).length) :=
  c5_fresh_ledger_creation (some [⟨"a.mp4", true, true⟩, ⟨"b.mkv", true, true⟩])

/-- C2: running `update_json_with_videos` a second time on its own output,
with the directory listing unchanged, adds zero entries and returns the
document unchanged. -/
theorem c2_load_or_create_idempotent (ex : Option RawDoc) (listing : List String) :
    updateJson (some (updateJson ex listing).1) listing = ((updateJson ex listing).1, 0) := by
  obtain ⟨b, hb⟩ : ∃ b, (updateJson ex listing).1.broll = some b := by
    cases ex with
    | none => exact ⟨[], by simp [updateJson, createDoc_fst]⟩
    | some d => exact ⟨_, reconcile_broll d listing⟩
  have hknown : ∀ n ∈ listing, n ∈ allCats (updateJson ex listing).1 := by
    cases ex with
    | none =>
      intro n hn
      simp [updateJson, createDoc_fst, allCats, hn]
    | some d =>
      intro n hn
      exact addNew_known_covers listing (fixBroll d) (allCats (fixBroll d)) 0
        (fun x hx => hx) n hn
  have hfix : fixBroll (updateJson ex listing).1 = (updateJson ex listing).1 :=
    fixBroll_of_isSome hb
  show reconcile (updateJson ex listing).1 listing = ((updateJson ex listing).1, 0)
  rw [reconcile, hfix]
  exact addNew_id listing _ _ 0 hknown

/-- C9: reconciliation never removes a filename from any of the five
categories: `used`, `inprogress`, `ignore` and `last_prefix` are unchanged,
`b-roll` is only made present (empty when it was absent), and `unused` is
only extended, by scanned names that were not previously known. -/
theorem c9_reconcile_frame (d : RawDoc) (listing : List String) :
    (reconcile d listing).1.used = d.used ∧
    (reconcile d listing).1.inprogress = d.inprogress ∧
    (reconcile d listing).1.ignore = d.ignore ∧
    (reconcile d listing).1.broll = some (d.broll.getD []) ∧
    (reconcile d listing).1.lastPfx = d.lastPfx ∧
    ∃ ns : List String, (reconcile d listing).1.unused = d.unused ++ ns ∧
      ∀ n ∈ ns, n ∈ listing ∧ n ∉ allCats (fixBroll d) := by
  obtain ⟨h1, h2, h3, h4, h5, ns, h6, h7⟩ :=
    addNew_spec listing (fixBroll d) (allCats (fixBroll d)) 0
  exact ⟨h1, h2, h3, h4, h5, ns, h6, h7⟩

/-- C9 witness: instance of the frame theorem at a concrete ledger whose
`inprogress` entry no longer exists in the directory listing. -/
theorem c9_witness :
    (reconcile ⟨["a"], [], ["gone.mp4"], [], none, none⟩ ["a", "new.mp4"]).1.inprogress =
      ["gone.mp4"] :=
  (c9_reconcile_frame ⟨["a"], [], ["gone.mp4"], [], none, none⟩ ["a", "new.mp4"]).2.1

/-- C3 (amended): the guarded transitions (ignore and b-roll during top-up;
done, ignore, return-to-unused and b-roll during in-progress management)
tolerate the name being absent from their source category — the removal is
a no-op and the name is still appended to the target — while the confirm
transition and the replacement draw instead fail (Python raises
`ValueError`) when the name is absent from `unused`; the workflow only
invokes those two with a name just drawn from `unused`. -/
theorem c3_amended_absent_name_behaviour {d : RawDoc} {c : String}
    (hu : c ∉ d.unused) (hi : c ∉ d.inprogress) :
    topupIgnore d c = { d with ignore := d.ignore ++ [c] } ∧
    topupBroll d c = { d with broll := some (d.broll.getD [] ++ [c]) } ∧
    handleReturn d c = { d with unused := d.unused ++ [c] } ∧
    handleBroll d c = { d with broll := some (d.broll.getD [] ++ [c]) } ∧
    handleDone d c = { d with used := d.used ++ [c] } ∧
    handleIgnore d c = { d with ignore := d.ignore ++ [c] } ∧
    topupConfirm d c = none ∧
    replaceDraw d c = none := by
  have eu : d.unused.erase c = d.unused := List.erase_of_not_mem hu
  have ei : d.inprogress.erase c = d.inprogress := List.erase_of_not_mem hi
  obtain ⟨u, us, ip, ig, br, lp⟩ := d
  simp only at eu ei hu
  refine ⟨?_, ?_, ?_, ?_, ?_, ?_, ?_, ?_⟩ <;>
    simp [topupIgnore, topupBroll, handleReturn, handleBroll, handleDone,
      handleIgnore, topupConfirm, replaceDraw, eu, ei, hu]

/-- C3 counterexample: with `unused = []`, the confirm transition's
unguarded `remove` fails (`none`) instead of tolerating the absent name
and appending it to `inprogress`. -/
theorem c3_counterexample :
    topupConfirm ⟨[], [], [], [], some [], none⟩ "a" = none ∧
      "a" ∉ (⟨[], [], [], [], some [], none⟩ : RawDoc).unused := by
  exact ⟨rfl, by decide⟩

/-- C3 witness: at a ledger with `unused = ["x"]` and the absent name `"a"`,
the amended theorem gives both a tolerated guarded transition and the
failing confirm. -/
theorem c3_witness :
    topupIgnore ⟨["x"], [], [], [], some [], none⟩ "a" =
      { (⟨["x"], [], [], [], some [], none⟩ : RawDoc) with
          ignore := (⟨["x"], [], [], [], some [], none⟩ : RawDoc).ignore ++ ["a"] } ∧
    topupConfirm ⟨["x"], [], [], [], some [], none⟩ "a" = none :=
  ⟨(c3_amended_absent_name_behaviour (by decide) (by decide)).1,
    (c3_amended_absent_name_behaviour (by decide) (by decide)).2.2.2.2.2.2.2⟩

/-- Outcomes of the filesystem operations inside `copy_to_working`: whether
the primary `try` block (mkv remux, or plain copy for other sources)
succeeds, and whether the fallback plain copy would succeed. -/
structure CopyEnv where
  primaryOk : Bool
  fallbackOk : Bool
deriving DecidableEq, Repr

/-- The kind of copy operation attempted. -/
inductive CopyAttempt
  | remux
  | plain
deriving DecidableEq, Repr

/-- `copy_to_working` (lines 54-78), as a function of the source suffix and
the operation outcomes: returns the reported success flag and the sequence
of attempted operations. -/
def copyToWorking (sfx : String) (env : CopyEnv) : Bool × List CopyAttempt :=
  let prim :=
    if String.mk (sfx.data.map Char.toLower) = ".mkv" then CopyAttempt.remux
    else CopyAttempt.plain
  if env.primaryOk then (true, [prim])
  else if env.fallbackOk then (true, [prim, CopyAttempt.plain])
  else (false, [prim, CopyAttempt.plain])

/-- C6: `copy_to_working` reports failure exactly when both the primary
operation (remux for `.mkv` suffixes, otherwise plain copy) and the
fallback plain copy fail, and whenever the primary fails a plain copy is
attempted before failure is reported. -/
theorem c6_copy_fallback (sfx : String) (env : CopyEnv) :
    ((copyToWorking sfx env).1 = false ↔
      env.primaryOk = false ∧ env.fallbackOk = false) ∧
    (env.primaryOk = false →
      (copyToWorking sfx env).2 =
        [if String.mk (sfx.data.map Char.toLower) = ".mkv" then CopyAttempt.remux
          else CopyAttempt.plain, CopyAttempt.plain]) := by
  obtain ⟨p, f⟩ := env
  cases p <;> cases f <;> simp [copyToWorking]

/-- C6 witness: an `.mkv` source whose remux fails still succeeds through
the fallback plain copy, which is attempted after the remux. -/
theorem c6_witness :
    (copyToWorking ".mkv" ⟨false, true⟩).1 = true ∧
    (copyToWorking ".mkv" ⟨false, true⟩).2 =
      [if String.mk (".mkv".data.map Char.toLower) = ".mkv" then CopyAttempt.remux
        else CopyAttempt.plain, CopyAttempt.plain] := by
  constructor
  · cases hb : (copyToWorking ".mkv" ⟨false, true⟩).1
    · exact absurd ((c6_copy_fallback ".mkv" ⟨false, true⟩).1.mp hb).2 (by decide)
    · rfl
  · exact (c6_copy_fallback ".mkv" ⟨false, true⟩).2 rfl

/-- C7: the scanner yields exactly the names of probe-surviving file entries
whose lowercased extension is in the fixed allow-list; an entry whose probe
raises is skipped without affecting the rest of the scan; a missing
directory yields the empty set. -/
theorem c7_scanner_filters :
    (∀ (es : List DirEntry) (x : String),
        x ∈ getVideoFiles (some es) ↔
          ∃ e ∈ es, e.probeOk = true ∧ e.isFile = true ∧
            extOf e.name ∈ videoExtensions ∧ e.name = x) ∧
    (∀ (es : List DirEntry) (e : DirEntry), e.probeOk = false →
        iterVideoFiles (some (e :: es)) = iterVideoFiles (some es)) ∧
    getVideoFiles none = ∅ := by
  refine ⟨?_, ?_, rfl⟩
  · intro es x
    simp only [getVideoFiles, List.mem_toFinset, iterVideoFiles, List.mem_filterMap,
      Option.ite_none_right_eq_some, Bool.and_eq_true, Option.some.injEq]
    constructor
    · rintro ⟨e, he, ⟨hp, hf, ha⟩, hx⟩
      refine ⟨e, he, hp, hf, ?_, hx⟩
      simpa [extAllowed] using ha
    · rintro ⟨e, he, hp, hf, ha, hx⟩
      refine ⟨e, he, ⟨hp, hf, ?_⟩, hx⟩
      simpa [extAllowed] using ha
  · intro es e hprobe
    simp [iterVideoFiles, hprobe]

/-- C7 witness: a probe-failing entry is skipped, leaving the scan of the
remaining entries unchanged. -/
theorem c7_witness :
    iterVideoFiles (some [⟨"bad.mp4", true, false⟩, ⟨"ok.mp4", true, true⟩]) =
      iterVideoFiles (some [⟨"ok.mp4", true, true⟩]) :=
  c7_scanner_filters.2.1 [⟨"ok.mp4", true, true⟩] ⟨"bad.mp4", true, false⟩ rfl

/-- Modelled from the spec: the batch selector (`select_and_update_files`)
is not part of `src/`; spec §4.3 says it samples `k` distinct names without
replacement from the prefix-filtered subset of `unused`, and fails —
reporting, not crashing, and leaving the ledger unmodified — when `k`
exceeds the available count.  This draws successive tape-indexed picks
without replacement. -/
def sampleDistinct : ℕ → List String → List ℕ → List String
  | 0, _, _ => []
  | k + 1, pool, tape =>
    if pool.isEmpty then []
    else
      pool.getD (tape.headD 0 % pool.length) "" ::
        sampleDistinct k (pool.eraseIdx (tape.headD 0 % pool.length)) tape.tail

/-- Modelled from the spec: the batch selector entry point.  On failure the
ledger is returned unmodified with an error report; on success the sampled
names move from `unused` into `inprogress`. -/
def batchSelect (d : RawDoc) (p : String) (k : ℕ) (tape : List ℕ) :
    Except String (List String) × RawDoc :=
  if k > (d.unused.filter fun n => charsStart p.data n.data).length then
    (Except.error "not enough candidates", d)
  else
    (Except.ok (sampleDistinct k (d.unused.filter fun n => charsStart p.data n.data) tape),
      { d with
          unused :=
            (sampleDistinct k (d.unused.filter fun n => charsStart p.data n.data) tape).foldl
              (fun u n => u.erase n) d.unused,
          inprogress := d.inprogress ++
            sampleDistinct k (d.unused.filter fun n => charsStart p.data n.data) tape })

/-- C8: whenever `k` exceeds the number of prefix-filtered candidates in
`unused`, the batch selector reports an error and leaves the ledger
unmodified. -/
theorem c8_batch_selector_error (d : RawDoc) (p : String) (k : ℕ) (tape : List ℕ)
    (h : (d.unused.filter fun n => charsStart p.data n.data).length < k) :
    batchSelect d p k tape = (Except.error "not enough candidates", d) := by
  simp [batchSelect, h]

/-- C8 witness: requesting two picks from the single `"a"`-prefixed
candidate reports the error and returns the ledger unchanged. -/
theorem c8_witness :
    batchSelect ⟨["ax", "broom"], [], [], [], some [], none⟩ "a" 2 [] =
      (Except.error "not enough candidates", ⟨["ax", "broom"], [], [], [], some [], none⟩) :=
  c8_batch_selector_error ⟨["ax", "broom"], [], [], [], some [], none⟩ "a" 2 [] (by decide)

/-- In-progress management action `d` on the pair of the ledger and the
in-memory set `existing_videos["inprogress"]` (lines 246-255). -/
def sysDone (s : RawDoc × Finset String) (c : String) : RawDoc × Finset String :=
  (handleDone s.1 c, s.2.erase c)

/-- In-progress management action `i` on the paired state (lines 257-265). -/
def sysIgnore (s : RawDoc × Finset String) (c : String) : RawDoc × Finset String :=
  (handleIgnore s.1 c, s.2.erase c)

/-- In-progress management action `r` on the paired state (lines 200-208). -/
def sysReturn (s : RawDoc × Finset String) (c : String) : RawDoc × Finset String :=
  (handleReturn s.1 c, s.2.erase c)

/-- In-progress management action `b` on the paired state (lines 235-244). -/
def sysBroll (s : RawDoc × Finset String) (c : String) : RawDoc × Finset String :=
  (handleBroll s.1 c, s.2.erase c)

/-- Replacement draw on the paired state (lines 221-223 and 278-280):
the drawn name moves `unused → inprogress` in the ledger and is added to
the in-memory set. -/
def sysReplace (s : RawDoc × Finset String) (c : String) :
    Option (RawDoc × Finset String) :=
  match replaceDraw s.1 c with
  | none => none
  | some d' => some (d', insert c s.2)

/-- C10 (amended): if the in-memory set equals the ledger's `inprogress`
list viewed as a set and that list has no duplicates, then after each
action (done, ignore, return-to-unused, b-roll, replacement draw) the two
views are again equal as sets. -/
theorem c10_amended_sync_preserved (d : RawDoc) (ev : Finset String) (c : String)
    (hsync : ev = d.inprogress.toFinset) (hnd : d.inprogress.Nodup) :
    (sysDone (d, ev) c).2 = (sysDone (d, ev) c).1.inprogress.toFinset ∧
    (sysIgnore (d, ev) c).2 = (sysIgnore (d, ev) c).1.inprogress.toFinset ∧
    (sysReturn (d, ev) c).2 = (sysReturn (d, ev) c).1.inprogress.toFinset ∧
    (sysBroll (d, ev) c).2 = (sysBroll (d, ev) c).1.inprogress.toFinset ∧
    ∀ s', sysReplace (d, ev) c = some s' → s'.2 = s'.1.inprogress.toFinset := by
  subst hsync
  have herase : (d.inprogress.erase c).toFinset = d.inprogress.toFinset.erase c := by
    ext y
    simp [List.mem_toFinset, Finset.mem_erase, hnd.mem_erase_iff]
  refine ⟨?_, ?_, ?_, ?_, ?_⟩
  · simp [sysDone, handleDone, herase]
  · simp [sysIgnore, handleIgnore, herase]
  · simp [sysReturn, handleReturn, herase]
  · simp [sysBroll, handleBroll, herase]
  · intro s' hs
    by_cases hm : c ∈ d.unused
    · simp only [sysReplace, replaceDraw, if_pos hm, Option.some.injEq] at hs
      subst hs
      ext y
      simp [List.mem_toFinset, Finset.mem_insert, List.mem_append, or_comm]
    · simp [sysReplace, replaceDraw, hm] at hs

/-- C10 counterexample: with `inprogress = ["a","a"]` the in-memory set
`{"a"}` equals the list viewed as a set, yet after `done` the list still
contains `"a"` while the set no longer does, so the claim as stated (with
no duplicate-freedom requirement) is false. -/
theorem c10_counterexample :
    ({"a"} : Finset String) =
        ((⟨[], [], ["a", "a"], [], some [], none⟩ : RawDoc)).inprogress.toFinset ∧
      ¬ ((sysDone (⟨[], [], ["a", "a"], [], some [], none⟩, {"a"}) "a").2 =
        (sysDone (⟨[], [], ["a", "a"], [], some [], none⟩, {"a"}) "a").1.inprogress.toFinset) := by
  constructor
  · decide
  · decide

/-- C10 witness: the amended theorem on the duplicate-free in-progress list
`["a","b"]` after `done` on `"a"`. -/
theorem c10_witness :
    (sysDone (⟨[], [], ["a", "b"], [], some [], none⟩,
        (["a", "b"] : List String).toFinset) "a").2 =
      (sysDone (⟨[], [], ["a", "b"], [], some [], none⟩,
        (["a", "b"] : List String).toFinset) "a").1.inprogress.toFinset :=
  (c10_amended_sync_preserved ⟨[], [], ["a", "b"], [], some [], none⟩ _ "a" rfl
    (by decide)).1

/-- The reservoir-sampling loop of `choose_random_by_prefix` (lines 35-42),
threading its state: current choice, number of matching items seen, and the
remaining random tape.  The k-th matching item consumes one tape entry,
standing for the result of `random.randrange(k)`; a missing entry stands
for the draw 0. -/
def resLoop (p : List Char) :
    List String → Option String × ℕ × List ℕ → Option String × ℕ × List ℕ
  | [], st => st
  | f :: fs, (ch, n, tape) =>
    if charsStart p f.data then
      resLoop p fs ((if tape.headD 0 = 0 then some f else ch), n + 1, tape.tail)
    else resLoop p fs (ch, n, tape)

/-- `choose_random_by_prefix` (lines 30-42): `none` on an empty list; with a
falsy prefix, `random.choice(items)` indexed by the tape's first entry;
otherwise the reservoir loop over the items matching the prefix. -/
def chooseRandomByPfx (items : List String) (pfx : Option String) (tape : List ℕ) :
    Option String :=
  if items.isEmpty then none
  else if pfxFalsy pfx then items.get? (tape.headD 0)
  else (resLoop (pfx.getD "").data items (none, 0, tape)).1

/-- Validity of a random tape whose entries model successive
`randrange(n+1), randrange(n+2), ...` draws. -/
def tapeOK : ℕ → List ℕ → Bool
  | _, [] => true
  | n, r :: rest => decide (r < n + 1) && tapeOK (n + 1) rest

/-- All valid tapes for `m` draws starting from zero matches seen:
the i-th entry ranges over `[0, i]`. -/
def allTapes : ℕ → List (List ℕ)
  | 0 => [[]]
  | m + 1 => (allTapes m).flatMap fun t => (List.range (m + 1)).map fun r => t ++ [r]

theorem resLoop_append (p : List Char) (as bs : List String) :
    ∀ st : Option String × ℕ × List ℕ,
      resLoop p (as ++ bs) st = resLoop p bs (resLoop p as st) := by
  induction as with
  | nil => intro st; rfl
  | cons f fs ih =>
    intro st
    obtain ⟨ch, n, tape⟩ := st
    by_cases hc : charsStart p f.data
    · simp [resLoop, hc, ih]
    · simp [resLoop, hc, ih]

theorem resLoop_isSome (p : List Char) (ms : List String) :
    ∀ st : Option String × ℕ × List ℕ, st.1.isSome = true →
      (resLoop p ms st).1.isSome = true := by
  induction ms with
  | nil => intro st h; exact h
  | cons f fs ih =>
    intro st h
    obtain ⟨ch, n, tape⟩ := st
    by_cases hc : charsStart p f.data
    · simp only [resLoop, hc, if_true]
      apply ih
      by_cases hr : tape.headD 0 = 0
      · rw [if_pos hr]; rfl
      · rw [if_neg hr]; exact h
    · simp only [resLoop, hc]
      simp only [Bool.false_eq_true, if_false]
      exact ih _ h

theorem resLoop_mem (p : List Char) (ms : List String) :
    ∀ (st : Option String × ℕ × List ℕ) (x : String),
      (resLoop p ms st).1 = some x →
      st.1 = some x ∨ (x ∈ ms ∧ charsStart p x.data = true) := by
  induction ms with
  | nil => intro st x h; exact Or.inl h
  | cons f fs ih =>
    intro st x h
    obtain ⟨ch, n, tape⟩ := st
    by_cases hc : charsStart p f.data
    · simp only [resLoop, hc, if_true] at h
      rcases ih _ x h with h' | h'
      · by_cases hr : tape.headD 0 = 0
        · rw [if_pos hr] at h'
          cases h'
          exact Or.inr ⟨List.mem_cons_self _ _, hc⟩
        · rw [if_neg hr] at h'
          exact Or.inl h'
      · exact Or.inr ⟨List.mem_cons_of_mem _ h'.1, h'.2⟩
    · simp only [resLoop, hc, Bool.false_eq_true, if_false] at h
      rcases ih _ x h with h' | h'
      · exact Or.inl h'
      · exact Or.inr ⟨List.mem_cons_of_mem _ h'.1, h'.2⟩

theorem resLoop_none_iff (p : List Char) (items : List String) :
    ∀ tape : List ℕ, tapeOK 0 tape = true →
      ((resLoop p items (none, 0, tape)).1 = none ↔
        items.filter (fun f => charsStart p f.data) = []) := by
  induction items with
  | nil => intro tape _; simp [resLoop]
  | cons f fs ih =>
    intro tape ht
    by_cases hc : charsStart p f.data
    · have hr : tape.headD 0 = 0 := by
        cases tape with
        | nil => rfl
        | cons r rest =>
          simp only [tapeOK, Bool.and_eq_true, decide_eq_true_eq] at ht
          simpa [List.headD] using Nat.lt_one_iff.mp ht.1
      constructor
      · intro h
        exfalso
        have hsome : (resLoop p (f :: fs) (none, 0, tape)).1.isSome = true := by
          simp only [resLoop, hc, if_true, hr, if_pos]
          exact resLoop_isSome p fs _ (by simp)
        rw [h] at hsome
        simp at hsome
      · intro h
        simp [List.filter_cons, hc] at h
    · have hstep : resLoop p (f :: fs) (none, 0, tape) = resLoop p fs (none, 0, tape) := by
        simp [resLoop, hc]
      rw [hstep, List.filter_cons, if_neg (by simp [hc])]
      exact ih tape ht

theorem resLoop_filter (p : List Char) (items : List String) :
    ∀ st : Option String × ℕ × List ℕ,
      resLoop p items st = resLoop p (items.filter fun f => charsStart p f.data) st := by
  induction items with
  | nil => intro st; rfl
  | cons f fs ih =>
    intro st
    obtain ⟨ch, n, tape⟩ := st
    by_cases hc : charsStart p f.data
    · rw [List.filter_cons, if_pos (by simp [hc])]
      simp only [resLoop, hc, if_true]
      exact ih _
    · rw [List.filter_cons, if_neg (by simp [hc])]
      simp only [resLoop, hc, Bool.false_eq_true, if_false]
      exact ih _

theorem resLoop_tape_split (p : List Char) :
    ∀ (ms : List String) (t rest : List ℕ) (ch : Option String) (n : ℕ),
      (∀ f ∈ ms, charsStart p f.data = true) → t.length = ms.length →
      (resLoop p ms (ch, n, t ++ rest)).1 = (resLoop p ms (ch, n, t)).1 ∧
        (resLoop p ms (ch, n, t ++ rest)).2.2 = rest := by
  intro ms
  induction ms with
  | nil =>
    intro t rest ch n _ hlen
    have ht : t = [] := List.length_eq_zero.mp (by simpa using hlen)
    subst ht
    exact ⟨rfl, rfl⟩
  | cons f fs ih =>
    intro t rest ch n hall hlen
    obtain ⟨r, t', rfl⟩ : ∃ r t', t = r :: t' := by
      cases t with
      | nil => simp at hlen
      | cons a b => exact ⟨a, b, rfl⟩
    have hc := hall f (List.mem_cons_self _ _)
    have hlen' : t'.length = fs.length := by simpa using hlen
    have hstep1 : resLoop p (f :: fs) (ch, n, (r :: t') ++ rest) =
        resLoop p fs ((if r = 0 then some f else ch), n + 1, t' ++ rest) := by
      simp [resLoop, hc]
    have hstep2 : resLoop p (f :: fs) (ch, n, r :: t') =
        resLoop p fs ((if r = 0 then some f else ch), n + 1, t') := by
      simp [resLoop, hc]
    rw [hstep1, hstep2]
    exact ih t' rest _ (n + 1) (fun g hg => hall g (List.mem_cons_of_mem _ hg)) hlen'

theorem resLoop_snoc_fst (p : List Char) (ms : List String) (y : String)
    (hall : ∀ f ∈ ms, charsStart p f.data = true) (hy : charsStart p y.data = true)
    (t : List ℕ) (r : ℕ) (hlen : t.length = ms.length) :
    (resLoop p (ms ++ [y]) (none, 0, t ++ [r])).1 =
      if r = 0 then some y else (resLoop p ms (none, 0, t)).1 := by
  rw [resLoop_append]
  obtain ⟨h1, h2⟩ := resLoop_tape_split p ms t [r] none 0 hall hlen
  generalize hgen : resLoop p ms (none, 0, t ++ [r]) = a at h1 h2
  obtain ⟨ch, n, tp⟩ := a
  simp only at h1 h2
  subst h2
  subst h1
  simp [resLoop, hy]

theorem allTapes_length_mem : ∀ (m : ℕ) (t : List ℕ), t ∈ allTapes m → t.length = m := by
  intro m
  induction m with
  | zero =>
    intro t ht
    simp only [allTapes, List.mem_singleton] at ht
    simp [ht]
  | succ m ih =>
    intro t ht
    simp only [allTapes, List.mem_flatMap, List.mem_map] at ht
    obtain ⟨t', ht', r, _, rfl⟩ := ht
    simp [ih t' ht']

theorem sum_map_const {α : Type} (l : List α) (c : ℕ) :
    (l.map fun _ => c).sum = l.length * c := by
  induction l with
  | nil => simp
  | cons a l ih =>
    simp only [List.map_cons, List.sum_cons, ih, List.length_cons]
    ring

theorem sum_map_add {α : Type} (l : List α) (f g : α → ℕ) :
    (l.map fun a => f a + g a).sum = (l.map f).sum + (l.map g).sum := by
  induction l with
  | nil => rfl
  | cons a l ih =>
    simp only [List.map_cons, List.sum_cons, ih]
    ring

theorem sum_map_ite {α : Type} (l : List α) (q : α → Bool) (c : ℕ) :
    (l.map fun a => if q a then c else 0).sum = l.countP q * c := by
  induction l with
  | nil => simp
  | cons a l ih =>
    by_cases h : q a <;>
      simp only [List.map_cons, List.sum_cons, ih, List.countP_cons, h, if_true,
        Bool.false_eq_true, if_false, decide_True, decide_False] <;>
      ring

theorem countP_flatMap {α β : Type} (l : List α) (f : α → List β) (q : β → Bool) :
    (l.flatMap f).countP q = (l.map fun a => (f a).countP q).sum := by
  induction l with
  | nil => rfl
  | cons a l ih =>
    simp only [List.flatMap_cons, List.countP_append, List.map_cons, List.sum_cons, ih]

theorem allTapes_card : ∀ m : ℕ, (allTapes m).length = m.factorial := by
  intro m
  induction m with
  | zero => rfl
  | succ m ih =>
    simp only [allTapes]
    rw [List.length_flatMap]
    simp only [Function.comp_def]
    have hmap : ((allTapes m).map fun t =>
        ((List.range (m + 1)).map fun r => t ++ [r]).length) =
        (allTapes m).map fun _ => m + 1 := by
      apply List.map_congr_left
      intro t _
      simp
    rw [hmap, sum_map_const, ih, Nat.factorial_succ]
    ring

theorem countP_range_zero (n : ℕ) :
    (List.range (n + 1)).countP (fun r => decide (r = 0)) = 1 := by
  induction n with
  | zero => rfl
  | succ k ih => rw [List.range_succ, List.countP_append, ih]; simp

theorem countP_range_nz (n : ℕ) :
    (List.range (n + 1)).countP (fun r => decide (¬ r = 0)) = n := by
  induction n with
  | zero => rfl
  | succ k ih => rw [List.range_succ, List.countP_append, ih]; simp

theorem countP_range_all (n : ℕ) :
    (List.range n).countP (fun _ => true) = n := by
  induction n with
  | zero => rfl
  | succ k ih => rw [List.range_succ, List.countP_append, ih]; simp

theorem countP_always_false {α : Type} (l : List α) :
    l.countP (fun _ => false) = 0 := by
  induction l with
  | nil => rfl
  | cons a l ih => simp [List.countP_cons, ih]

theorem countP_congr_own {α : Type} (l : List α) (p q : α → Bool)
    (h : ∀ a ∈ l, p a = q a) : l.countP p = l.countP q := by
  induction l with
  | nil => rfl
  | cons a l ih =>
    rw [List.countP_cons, List.countP_cons, h a (List.mem_cons_self _ _),
      ih fun b hb => h b (List.mem_cons_of_mem _ hb)]

theorem sum_map_ite_prop {α : Type} (l : List α) (P : α → Prop) [DecidablePred P] (c : ℕ) :
    (l.map fun a => if P a then c else 0).sum = (l.countP fun a => decide (P a)) * c := by
  induction l with
  | nil => simp
  | cons a l ih =>
    rw [List.map_cons, List.sum_cons, ih, List.countP_cons]
    by_cases h : P a
    · rw [if_pos h, decide_eq_true h,
        show (if (true : Bool) = true then (1 : ℕ) else 0) = 1 from rfl]
      ring
    · rw [if_neg h, decide_eq_false h,
        show (if (false : Bool) = true then (1 : ℕ) else 0) = 0 from rfl]
      ring

theorem resLoop_uniform (p : List Char) (x : String) :
    ∀ ms : List String, (∀ f ∈ ms, charsStart p f.data = true) →
      ((allTapes ms.length).countP fun t =>
          decide ((resLoop p ms (none, 0, t)).1 = some x)) =
        ms.count x * (ms.length - 1).factorial := by
  intro ms
  induction ms using List.reverseRecOn with
  | nil =>
    intro _
    simp [allTapes, resLoop, List.countP_cons]
  | append_singleton ms' y ih =>
    intro hall
    have hall' : ∀ f ∈ ms', charsStart p f.data = true := fun f hf =>
      hall f (List.mem_append_left _ hf)
    have hy : charsStart p y.data = true :=
      hall y (List.mem_append_right _ (List.mem_singleton_self y))
    simp only [List.length_append, List.length_singleton, Nat.add_sub_cancel]
    simp only [allTapes]
    rw [countP_flatMap]
    have hinner : ∀ t ∈ allTapes ms'.length,
        (((List.range (ms'.length + 1)).map fun r => t ++ [r]).countP fun tp =>
            decide ((resLoop p (ms' ++ [y]) (none, 0, tp)).1 = some x)) =
          (if y = x then 1 else 0) +
            (if (resLoop p ms' (none, 0, t)).1 = some x then ms'.length else 0) := by
      intro t ht
      have hlen' := allTapes_length_mem ms'.length t ht
      rw [List.countP_map]
      by_cases hxy : y = x
      · by_cases hch : (resLoop p ms' (none, 0, t)).1 = some x
        · rw [countP_congr_own (List.range (ms'.length + 1)) _ (fun _ => true) ?_,
            countP_range_all]
          · rw [if_pos hxy, if_pos hch]
            omega
          · intro r _
            simp only [Function.comp_apply]
            rw [resLoop_snoc_fst p ms' y hall' hy t r hlen']
            by_cases hr : r = 0 <;> simp [hr, hxy, hch]
        · rw [countP_congr_own (List.range (ms'.length + 1)) _ (fun r => decide (r = 0)) ?_,
            countP_range_zero]
          · rw [if_pos hxy, if_neg hch]
          · intro r _
            simp only [Function.comp_apply]
            rw [resLoop_snoc_fst p ms' y hall' hy t r hlen']
            by_cases hr : r = 0 <;> simp [hr, hxy, hch]
      · by_cases hch : (resLoop p ms' (none, 0, t)).1 = some x
        · rw [countP_congr_own (List.range (ms'.length + 1)) _ (fun r => decide (¬ r = 0)) ?_,
            countP_range_nz]
          · rw [if_neg hxy, if_pos hch]
            omega
          · intro r _
            simp only [Function.comp_apply]
            rw [resLoop_snoc_fst p ms' y hall' hy t r hlen']
            by_cases hr : r = 0 <;> simp [hr, hxy, hch]
        · rw [countP_congr_own (List.range (ms'.length + 1)) _ (fun _ => false) ?_,
            countP_always_false]
          · rw [if_neg hxy, if_neg hch]
          · intro r _
            simp only [Function.comp_apply]
            rw [resLoop_snoc_fst p ms' y hall' hy t r hlen']
            by_cases hr : r = 0 <;> simp [hr, hxy, hch]
    rw [List.map_congr_left hinner, sum_map_add, sum_map_const, sum_map_ite_prop,
      allTapes_card, ih hall', List.count_append]
    by_cases hxy : y = x
    · subst hxy
      rw [count_single_self, if_pos rfl]
      rcases Nat.eq_zero_or_pos ms'.length with h0 | hpos
      · have hc0 : ms'.count y = 0 := by
          have := List.count_le_length y ms'
          omega
        rw [h0, hc0]
        simp [Nat.factorial]
      · have hf : ms'.length * (ms'.length - 1).factorial = ms'.length.factorial :=
          Nat.mul_factorial_pred hpos
        have h2 : ms'.count y * (ms'.length - 1).factorial * ms'.length =
            ms'.count y * ms'.length.factorial := by
          rw [mul_assoc, mul_comm ((ms'.length - 1).factorial) ms'.length, hf]
        rw [h2]
        ring
    · rw [count_single_ne fun h => hxy h.symm, if_neg hxy]
      rcases Nat.eq_zero_or_pos ms'.length with h0 | hpos
      · have hc0 : ms'.count x = 0 := by
          have := List.count_le_length x ms'
          omega
        rw [h0, hc0]
        simp
      · have hf : ms'.length * (ms'.length - 1).factorial = ms'.length.factorial :=
          Nat.mul_factorial_pred hpos
        have h2 : ms'.count x * (ms'.length - 1).factorial * ms'.length =
            ms'.count x * ms'.length.factorial := by
          rw [mul_assoc, mul_comm ((ms'.length - 1).factorial) ms'.length, hf]
        rw [h2]
        ring

theorem countP_range_get (l : List String) (x : String) :
    (List.range l.length).countP (fun i => decide (l.get? i = some x)) = l.count x := by
  induction l with
  | nil => rfl
  | cons a tl ih =>
    rw [List.length_cons, List.range_succ_eq_map, List.countP_cons, List.countP_map]
    have hcomp : ((fun i => decide ((a :: tl).get? i = some x)) ∘ Nat.succ) =
        fun i => decide (tl.get? i = some x) := by
      funext i
      rfl
    rw [hcomp, ih, List.count_cons]
    by_cases hax : a = x
    · subst hax
      simp
    · simp [hax, Ne.symm hax]

/-- C4: `choose_random_by_prefix` with a non-empty prefix returns only
members of `items` starting with the prefix; over a valid random tape it
returns `none` exactly when no item matches; over all valid tapes each
matching occurrence is selected equally often (`(m-1)!` of the `m!` tapes
per occurrence — the uniform distribution); with an empty or absent prefix
each occurrence of each name is selected by exactly its share of the
`len(items)` possible `random.choice` draws; and an empty list always
yields `none`. -/
theorem c4_choose_random_correct (items : List String) (p : String)
    (hp : pfxFalsy (some p) = false) :
    (∀ (tape : List ℕ) (x : String),
        chooseRandomByPfx items (some p) tape = some x →
          x ∈ items ∧ charsStart p.data x.data = true) ∧
    (∀ tape : List ℕ, tapeOK 0 tape = true →
        (chooseRandomByPfx items (some p) tape = none ↔
          items.filter (fun f => charsStart p.data f.data) = [])) ∧
    (∀ x : String,
        ((allTapes (items.filter fun f => charsStart p.data f.data).length).countP fun t =>
            decide (chooseRandomByPfx items (some p) t = some x)) =
          (items.filter fun f => charsStart p.data f.data).count x *
            ((items.filter fun f => charsStart p.data f.data).length - 1).factorial) ∧
    ((allTapes (items.filter fun f => charsStart p.data f.data).length).length =
      (items.filter fun f => charsStart p.data f.data).length.factorial) ∧
    (∀ q : Option String, pfxFalsy q = true → ∀ x : String,
        ((List.range items.length).countP fun i =>
            decide (chooseRandomByPfx items q [i] = some x)) = items.count x) ∧
    (∀ (q : Option String) (tape : List ℕ), chooseRandomByPfx [] q tape = none) := by
  refine ⟨?_, ?_, ?_, allTapes_card _, ?_, fun q tape => rfl⟩
  · intro tape x hx
    by_cases he : items.isEmpty
    · rw [chooseRandomByPfx, if_pos he] at hx
      exact absurd hx (by simp)
    · rw [chooseRandomByPfx, if_neg he, if_neg (by simp [hp])] at hx
      rcases resLoop_mem _ items (none, 0, tape) x hx with h | h
      · exact absurd h (by simp)
      · exact h
  · intro tape ht
    by_cases he : items.isEmpty
    · have hnil : items = [] := List.isEmpty_iff.mp he
      subst hnil
      simp [chooseRandomByPfx]
    · rw [chooseRandomByPfx, if_neg he, if_neg (by simp [hp])]
      exact resLoop_none_iff _ items tape ht
  · intro x
    by_cases he : items.isEmpty
    · have hnil : items = [] := List.isEmpty_iff.mp he
      subst hnil
      simp [chooseRandomByPfx, allTapes, List.countP_cons]
    · rw [countP_congr_own _ _
        (fun t => decide ((resLoop p.data
          (items.filter fun f => charsStart p.data f.data) (none, 0, t)).1 = some x)) ?_]
      · refine resLoop_uniform p.data x _ ?_
        intro f hf
        have h2 := List.of_mem_filter hf
        exact h2
      · intro t _
        have heq : chooseRandomByPfx items (some p) t =
            (resLoop p.data (items.filter fun f => charsStart p.data f.data)
              (none, 0, t)).1 := by
          rw [chooseRandomByPfx, if_neg he, if_neg (by simp [hp])]
          exact congrArg Prod.fst (resLoop_filter p.data items (none, 0, t))
        rw [heq]
  · intro q hq x
    by_cases he : items.isEmpty
    · have hnil : items = [] := List.isEmpty_iff.mp he
      subst hnil
      simp [chooseRandomByPfx]
    · rw [countP_congr_own _ _ (fun i => decide (items.get? i = some x)) ?_]
      · exact countP_range_get items x
      · intro i _
        have heq : chooseRandomByPfx items q [i] = items.get? i := by
          rw [chooseRandomByPfx, if_neg he, if_pos hq]
          rfl
        rw [heq]

/-- C4 witness: on `["ax","b","ay"]` with prefix `"a"` and the valid tape
`[0,1]`, applying the theorem's none-characterisation shows the selector
returns a value (the filtered candidate set is non-empty). -/
theorem c4_witness :
    ¬ (chooseRandomByPfx ["ax", "b", "ay"] (some "a") [0, 1] = none) := fun h =>
  absurd (((c4_choose_random_correct ["ax", "b", "ay"] "a" (by decide)).2.1 [0, 1]
    (by decide)).mp h) (by decide)

end TresLeches
